import Mathlib

/-!
A shallow embedding of the consolidation + FIFO-matching core of
`trade-log-formatter.py` (`consolidate_trades`, `match_trades_fifo`).

Modelling choices:
* dates and times are naturals (`YYYYMMDD` / `HHMMSS` digit strings compare
  the same way lexicographically as the numbers do, which is what Python's
  tuple comparison on the formatted strings uses);
* prices are rationals (Python floats perform exact decimal arithmetic on
  all quantities appearing in the claims);
* quantities are integers, as in the source (the script stores short lots
  with negative `Qty`);
* Python dicts (`consolidated`, `positions`) are association lists in
  insertion order, which is exactly the iteration order the source relies
  on;
* the two in-place row-mutation loops become structural recursions that
  rebuild the row list (`closeWalk` for the SELL loop at lines 523-531,
  `coverWalk`/`coverRows` for the `reversed(...)` BUY loop at lines
  485-496).
-/

inductive Side where
  | BUY | SELL | LONG | SHORT
deriving DecidableEq

structure Trade where
  symbol : String
  date : Nat
  time : Nat
  quantity : Int
  price : ℚ
  side : Side
deriving DecidableEq

/-- Line 349: `trade['Side'] = 'LONG' if trade['Side'] == 'BUY' else 'SHORT'`. -/
def updSide (t : Trade) : Trade :=
  { t with side := if t.side = Side.BUY then Side.LONG else Side.SHORT }

/-- Line 350: the grouping key `(trade['Symbol'], trade['Date'], trade['Side'])`. -/
def ckey (t : Trade) : String × Nat × Side :=
  (t.symbol, t.date, t.side)

/-- Lines 352-375: merge a same-key trade into the existing consolidated
entry: summed quantity, quantity-weighted average price, and the
direction-dependent representative time (latest for SHORT, earliest
otherwise). -/
def mergeTrade (existing t : Trade) : Trade :=
  let totalQty : Int := existing.quantity + t.quantity
  let weightedPrice : ℚ :=
    ((existing.quantity : ℚ) * existing.price + (t.quantity : ℚ) * t.price) / (totalQty : ℚ)
  let timeToUse : Nat :=
    if t.side = Side.SHORT then max existing.time t.time else min existing.time t.time
  { symbol := t.symbol, date := t.date, time := timeToUse, side := t.side,
    quantity := totalQty, price := weightedPrice }

/-- One step of the `consolidated` dict update: merge under an existing key
(keeping its dict position) or append a fresh entry (`trade.copy()`), as a
Python dict does on first insertion. -/
def dictInsert : List ((String × Nat × Side) × Trade) → (String × Nat × Side) → Trade →
    List ((String × Nat × Side) × Trade)
  | [], k, t => [(k, t)]
  | kv :: rest, k, t =>
    if kv.1 = k then (kv.1, mergeTrade kv.2 t) :: rest else kv :: dictInsert rest k t

/-- Lines 343-379: `consolidate_trades`.  Every incoming trade first has its
side rewritten (BUY ↦ LONG, everything else ↦ SHORT), then is merged into
the dict keyed by `(Symbol, Date, Side)`; the result is the dict's values
in insertion order. -/
def consolidate_trades (trades : List Trade) : List Trade :=
  (trades.foldl (fun m t0 => let t := updSide t0; dictInsert m (ckey t) t) []).map Prod.snd

structure Row where
  symbol : String
  qty : Int
  side : Side
  entryPrice : ℚ
  entryTime : Nat
  entryDate : Nat
  notes : String
  exitQty : Option Int
  exitPrice : Option ℚ
  exitTime : Option Nat
  exitDate : Option Nat
deriving DecidableEq

/-- The per-symbol value of the `positions` dict: the running balance
`positions[symbol]['qty']` and the row list `positions[symbol]['trades']`. -/
structure Pos where
  qty : Int
  trades : List Row
deriving DecidableEq

def getPos : List (String × Pos) → String → Pos
  | [], _ => ⟨0, []⟩
  | kv :: rest, s => if kv.1 = s then kv.2 else getPos rest s

def setPos : List (String × Pos) → String → Pos → List (String × Pos)
  | [], s, p => [(s, p)]
  | kv :: rest, s, p => if kv.1 = s then (s, p) :: rest else kv :: setPos rest s p

/-- Lines 523-531: the SELL branch's loop `for pos in curr_pos['trades']`.
A row is a candidate iff `pos['Side'] == 'BUY'`, its `Exit Qty` is unset
and there is still quantity to sell; it then receives
`Exit Qty = -pos_close` with `pos_close = min(remaining_sell, pos['Qty'])`
and the trade's exit price/time/date.  Returns the rewritten row list and
the final `remaining_sell`. -/
def closeWalk (price : ℚ) (time date : Nat) : List Row → Int → List Row × Int
  | [], rem => ([], rem)
  | r :: rest, rem =>
    if r.side = Side.BUY ∧ r.exitQty = none ∧ 0 < rem then
      let pc := min rem r.qty
      let r' := { r with exitQty := some (-pc), exitPrice := some price,
                         exitTime := some time, exitDate := some date }
      let res := closeWalk price time date rest (rem - pc)
      (r' :: res.1, res.2)
    else
      let res := closeWalk price time date rest rem
      (r :: res.1, res.2)

/-- Lines 485-496, walk order abstracted: candidate test
`pos['Side'] == 'SELL'`, unset `Exit Qty`, `cover_qty > 0`; the row gets
`Exit Qty = pos_cover` with `pos_cover = min(cover_qty, abs(pos['Qty']))`.
Returns the rewritten list and the final `cover_qty`. -/
def coverWalk (price : ℚ) (time date : Nat) : List Row → Int → List Row × Int
  | [], cover => ([], cover)
  | r :: rest, cover =>
    if r.side = Side.SELL ∧ r.exitQty = none ∧ 0 < cover then
      let pc := min cover (|r.qty|)
      let r' := { r with exitQty := some pc, exitPrice := some price,
                         exitTime := some time, exitDate := some date }
      let res := coverWalk price time date rest (cover - pc)
      (r' :: res.1, res.2)
    else
      let res := coverWalk price time date rest cover
      (r :: res.1, res.2)

/-- Line 485: the BUY branch iterates `reversed(curr_pos['trades'])`, so the
walk runs over the reversed list and the result is reversed back into the
original storage order. -/
def coverRows (price : ℚ) (time date : Nat) (rows : List Row) (cover : Int) : List Row × Int :=
  let res := coverWalk price time date rows.reverse cover
  (res.1.reverse, res.2)

/-- Lines 503-515 / 538-550: the freshly created ledger row; `Notes` is the
empty string in both branches of the source. -/
def newRow (symbol : String) (q : Int) (side : Side) (price : ℚ) (time date : Nat) : Row :=
  { symbol := symbol, qty := q, side := side, entryPrice := price,
    entryTime := time, entryDate := date, notes := "",
    exitQty := none, exitPrice := none, exitTime := none, exitDate := none }

/-- Lines 477-517, the `side == 'LONG'` branch: when the running balance is
negative, cover open SHORT rows in reverse order, capped by
`cover_qty = min(qty, abs(curr_pos['qty']))`; open a new BUY row for any
`remaining_qty`; always bump the balance by the trade quantity. -/
def applyLong (t : Trade) (p : Pos) : Pos :=
  let wr :=
    if p.qty < 0 then
      let c0 := min t.quantity (|p.qty|)
      let res := coverRows t.price t.time t.date p.trades c0
      (res.1, t.quantity - (c0 - res.2))
    else
      (p.trades, t.quantity)
  let rows :=
    if 0 < wr.2 then
      wr.1 ++ [newRow t.symbol wr.2 Side.BUY t.price t.time t.date]
    else wr.1
  ⟨p.qty + t.quantity, rows⟩

/-- Lines 519-552, the `side == 'SHORT'` branch: close open BUY rows in
list order, open a new SELL row (negative `Qty`) for any `remaining_sell`,
and drop the balance by the trade quantity. -/
def applyShort (t : Trade) (p : Pos) : Pos :=
  let res := closeWalk t.price t.time t.date p.trades t.quantity
  let rows :=
    if 0 < res.2 then
      res.1 ++ [newRow t.symbol (-res.2) Side.SELL t.price t.time t.date]
    else res.1
  ⟨p.qty - t.quantity, rows⟩

/-- Lines 462-554: the body of the per-trade loop of `match_trades_fifo`.
Any side other than LONG/SHORT only materialises the symbol's dict entry
(the `if symbol not in positions` initialisation at line 470). -/
def applyTrade (m : List (String × Pos)) (t : Trade) : List (String × Pos) :=
  let p := getPos m t.symbol
  if t.side = Side.LONG then
    setPos m t.symbol (applyLong t p)
  else if t.side = Side.SHORT then
    setPos m t.symbol (applyShort t p)
  else
    setPos m t.symbol p

/-- The chronological key `(x['Date'], x['Time'])` of line 457. -/
def tkey (t : Trade) : Nat × Nat := (t.date, t.time)

/-- Lexicographic order on `(date, time)` pairs, as Python tuple comparison. -/
def keyLE (a b : Nat × Nat) : Prop := a.1 < b.1 ∨ (a.1 = b.1 ∧ a.2 ≤ b.2)

instance (a b : Nat × Nat) : Decidable (keyLE a b) :=
  inferInstanceAs (Decidable (a.1 < b.1 ∨ (a.1 = b.1 ∧ a.2 ≤ b.2)))

def tradeLE (a b : Trade) : Prop := keyLE (tkey a) (tkey b)

instance : DecidableRel tradeLE :=
  fun a b => inferInstanceAs (Decidable (keyLE (tkey a) (tkey b)))

instance : IsTotal Trade tradeLE :=
  ⟨fun a b => by
    unfold tradeLE keyLE
    rcases Nat.lt_trichotomy (tkey a).1 (tkey b).1 with h | h | h
    · exact Or.inl (Or.inl h)
    · rcases Nat.le_total (tkey a).2 (tkey b).2 with h2 | h2
      · exact Or.inl (Or.inr ⟨h, h2⟩)
      · exact Or.inr (Or.inr ⟨h.symm, h2⟩)
    · exact Or.inr (Or.inl h)⟩

instance : IsTrans Trade tradeLE :=
  ⟨fun a b c hab hbc => by
    unfold tradeLE keyLE at *
    rcases hab with h1 | ⟨h1, h1'⟩
    · rcases hbc with h2 | ⟨h2, _⟩
      · exact Or.inl (h1.trans h2)
      · exact Or.inl (h2 ▸ h1)
    · rcases hbc with h2 | ⟨h2, h2'⟩
      · exact Or.inl (h1 ▸ h2)
      · exact Or.inr ⟨h1.trans h2, h1'.trans h2'⟩⟩

/-- Line 457: `sorted(consolidated_trades, key=lambda x: (x['Date'], x['Time']))`,
a stable sort by the chronological key. -/
def sortTrades (l : List Trade) : List Trade := List.insertionSort tradeLE l

/-- The entry key `(Entry Date, Entry Time)` used by the final
`sort_values('datetime')` of lines 564-566. -/
def rowKey (r : Row) : Nat × Nat := (r.entryDate, r.entryTime)

def rowLE (a b : Row) : Prop := keyLE (rowKey a) (rowKey b)

instance : DecidableRel rowLE :=
  fun a b => inferInstanceAs (Decidable (keyLE (rowKey a) (rowKey b)))

/-- Lines 452-568: `match_trades_fifo`.  Note that the `df_master` argument
is ignored by the source: the `positions` dict starts empty and the
returned frame is rebuilt purely from `consolidated_trades`. -/
def match_trades_fifo (df_master : List Row) (consolidated_trades : List Trade) : List Row :=
  let trades := sortTrades consolidated_trades
  let positions := trades.foldl applyTrade []
  let allTrades := (positions.map fun kv => kv.2.trades).flatten
  List.insertionSort rowLE allTrades

/-- The signed net contribution of a ledger row, in stored-field form:
`Qty + (Exit Qty or 0)` (this is what `test_balance_calculation` sums). -/
def rowNet (r : Row) : Int := r.qty + r.exitQty.getD 0

/-- Net ledger quantity recorded for a symbol. -/
def symNet (m : List (String × Pos)) (s : String) : Int :=
  ((getPos m s).trades.map rowNet).sum

/-- Modelled from the spec: `signed(q, LONG) = +q`, `signed(q, SHORT) = −q`
applied to a consolidated trade's quantity. -/
def tradeSigned (t : Trade) : Int :=
  if t.side = Side.LONG then t.quantity
  else if t.side = Side.SHORT then -t.quantity else 0

/-- Modelled from the spec: `signed(entryQuantity − exitQuantity, direction)`
for a ledger row, where `entryQuantity` and `exitQuantity` are the stored
magnitudes and direction LONG corresponds to stored side BUY. -/
def specSignedNet (r : Row) : Int :=
  (if r.side = Side.BUY then 1 else -1) * ((|r.qty|) - (|r.exitQty.getD 0|))

/-! ### Concrete inputs used by counterexamples and witnesses -/

/-- 28.50, written as a normalised rational so that kernel evaluation of
concrete runs never has to unfold `Rat.ofScientific`. -/
def pr28_5 : ℚ := ⟨57, 2, by decide, by decide⟩

/-- 30.905 as a normalised rational. -/
def pr30_905 : ℚ := ⟨6181, 200, by decide, by decide⟩

/-- 449.80 as a normalised rational. -/
def pr449_8 : ℚ := ⟨2249, 5, by decide, by decide⟩

/-- 30.40 as a normalised rational. -/
def pr30_4 : ℚ := ⟨152, 5, by decide, by decide⟩

/-- The price constants are exactly the decimal literals of the scenario. -/
theorem price_constants_eq :
    pr28_5 = 28.5 ∧ pr30_905 = 30.905 ∧ pr449_8 = 449.8 ∧ pr30_4 = 30.4 :=
  ⟨by with_unfolding_all rfl, by with_unfolding_all rfl,
   by with_unfolding_all rfl, by with_unfolding_all rfl⟩

/-- The four raw executions of the spec's end-to-end scenario (§8), with
dates and times as `YYYYMMDD` / `HHMMSS` numerals. -/
def rawIonqL60 : Trade := ⟨"IONQ", 20250502, 94611, 60, pr28_5, Side.BUY⟩

def rawIonqS125 : Trade := ⟨"IONQ", 20250502, 155916, 125, pr30_905, Side.SELL⟩

def rawCrwdL5 : Trade := ⟨"CRWD", 20250505, 104857, 5, pr449_8, Side.BUY⟩

def rawIonqL100 : Trade := ⟨"IONQ", 20250505, 100617, 100, pr30_4, Side.BUY⟩

def raw7 : List Trade := [rawIonqL60, rawIonqS125, rawCrwdL5, rawIonqL100]

/-- Two short entries followed by a partial cover, for the walk-order claim. -/
def tsC1 : List Trade :=
  [⟨"A", 1, 0, 10, 1, Side.SHORT⟩, ⟨"A", 2, 0, 10, 1, Side.SHORT⟩, ⟨"A", 3, 0, 5, 2, Side.LONG⟩]

/-- A long entry, a partial close, then a second close, for the
partial-lot claim. -/
def tsC3 : List Trade :=
  [⟨"A", 1, 0, 100, 1, Side.LONG⟩, ⟨"A", 2, 0, 30, 2, Side.SHORT⟩, ⟨"A", 3, 0, 50, 3, Side.SHORT⟩]

/-- A long entry fully closed by a short, for the exit-sign claim. -/
def tsC5 : List Trade :=
  [⟨"A", 1, 0, 60, 1, Side.LONG⟩, ⟨"A", 2, 0, 60, 2, Side.SHORT⟩]

/-- A single uncovered short trade, for the annotation claim. -/
def tsC6 : List Trade := [⟨"A", 1, 0, 10, 1, Side.SHORT⟩]

/-- Same-day LONG and SHORT executions of one symbol, for the
consolidation-idempotence claim. -/
def c8raw : List Trade := [⟨"A", 1, 0, 1, 1, Side.BUY⟩, ⟨"A", 1, 1, 2, 4, Side.SELL⟩]

/-- An execution with non-positive quantity and price, for the
validation claim. -/
def c9bad : Trade := ⟨"A", 1, 0, 0, -1, Side.BUY⟩

/-- A pre-existing open ledger row, for the frame claim. -/
def c4Row : Row := ⟨"M", 10, Side.BUY, 5, 0, 1, "", none, none, none, none⟩

/-- The four ledger rows the matcher actually produces on the end-to-end
scenario. -/
def out1 : Row :=
  ⟨"IONQ", 60, Side.BUY, pr28_5, 94611, 20250502, "",
    some (-60), some pr30_905, some 155916, some 20250502⟩

def out2 : Row :=
  ⟨"IONQ", -65, Side.SELL, pr30_905, 155916, 20250502, "",
    some 65, some pr30_4, some 100617, some 20250505⟩

def out3 : Row := ⟨"IONQ", 35, Side.BUY, pr30_4, 100617, 20250505, "", none, none, none, none⟩

def out4 : Row := ⟨"CRWD", 5, Side.BUY, pr449_8, 104857, 20250505, "", none, none, none, none⟩

/-! ### C4: the matcher drops the ledger it is given -/

/-- C4 (code bug): `match_trades_fifo` never reads its `df_master` argument
— the `positions` dict is rebuilt from scratch out of the given trades, so
every pre-existing ledger row is dropped from the returned ledger.  In
particular a ledger holding one open row and an empty trade batch comes
back empty, contradicting "rows are never deleted". -/
theorem C4_master_ignored :
    (∀ (df : List Row) (ts : List Trade), match_trades_fifo df ts = match_trades_fifo [] ts) ∧
      match_trades_fifo [c4Row] [] = [] :=
  ⟨fun _ _ => rfl, rfl⟩

/-! ### C6: uncovered shorts are not annotated -/

/-- C6 counterexample: a SHORT trade with no open LONG lots creates exactly
one row, but its `Notes` field is the empty string, not `"Short Position"`
(lines 538-550 set `'Notes': ''`). -/
theorem C6_counterexample :
    (match_trades_fifo [] tsC6).map Row.notes = [""] ∧ ("" : String) ≠ "Short Position" := by
  decide

/-! ### C7: the end-to-end scenario -/

/-- C7 counterexample: consolidating and matching the spec's four-trade
scenario yields three IONQ rows, not two, and no row has entry quantity
100: the LONG 100 covers the uncovered short lot of 65 and opens a fresh
lot of 35 instead of exiting against a 100-share entry. -/
theorem C7_counterexample :
    ((match_trades_fifo [] (consolidate_trades raw7)).filter
        (fun r => r.symbol == "IONQ")).length = 3 ∧
      (match_trades_fifo [] (consolidate_trades raw7)).map Row.qty = [60, -65, 35, 5] := by
  decide

/-- C7 amended: the pipeline yields exactly four rows — IONQ 60 fully
closed at 30.905, an uncovered IONQ short lot of 65 later covered at 30.4,
an open IONQ lot of 35, and an open CRWD lot of 5 — and the net open
balances are IONQ 35 and CRWD 5. -/
theorem C7_amended :
    match_trades_fifo [] (consolidate_trades raw7) = [out1, out2, out3, out4] ∧
      (((match_trades_fifo [] (consolidate_trades raw7)).filter
          (fun r => r.symbol == "IONQ")).map rowNet).sum = 35 ∧
      (((match_trades_fifo [] (consolidate_trades raw7)).filter
          (fun r => r.symbol == "CRWD")).map rowNet).sum = 5 := by
  decide

/-! ### C8: consolidation is not idempotent -/

/-- C8 counterexample: re-running `consolidate_trades` on its own output
merges the LONG and SHORT groups of a same-day symbol (the side rewrite
`'LONG' if side == 'BUY' else 'SHORT'` maps every already-consolidated
side to SHORT), changing the quantities from `[1, 2]` to `[3]` and the
prices from `[1, 4]` to `[3]`. -/
theorem C8_counterexample :
    (consolidate_trades c8raw).map Trade.quantity = [1, 2] ∧
      (consolidate_trades c8raw).map Trade.price = [1, 4] ∧
      (consolidate_trades (consolidate_trades c8raw)).map Trade.quantity = [3] ∧
      (consolidate_trades (consolidate_trades c8raw)).map Trade.price = [3] :=
  of_decide_eq_true (by with_unfolding_all rfl)

/-! ### C9: consolidate performs no input validation -/

/-- C9 counterexample: an execution with quantity 0 and price −1 is
consolidated normally — `consolidate_trades` has no validation and no
failure path, so it does not fail with `InvalidInput`. -/
theorem C9_counterexample :
    consolidate_trades [c9bad] = [⟨"A", 1, 0, 0, -1, Side.LONG⟩] ∧
      c9bad.quantity ≤ 0 ∧ c9bad.price ≤ 0 := by
  decide

/-- C9 amended: `consolidate_trades` accepts executions with non-positive
quantity or price and copies them into its output (with the side rewritten)
instead of rejecting them. -/
theorem C9_amended (t : Trade) (_h : t.quantity ≤ 0 ∨ t.price ≤ 0) :
    consolidate_trades [t] = [updSide t] :=
  rfl

/-- Witness for `C9_amended` at a concrete invalid execution. -/
theorem C9_witness :
    consolidate_trades [(⟨"B", 1, 0, -5, 0, Side.SELL⟩ : Trade)] =
      [updSide ⟨"B", 1, 0, -5, 0, Side.SELL⟩] :=
  C9_amended ⟨"B", 1, 0, -5, 0, Side.SELL⟩ (Or.inl (by decide))

/-! ### Association-list lemmas for the `positions` dict -/

theorem getPos_setPos_self : ∀ (m : List (String × Pos)) (s : String) (p : Pos),
    getPos (setPos m s p) s = p := by
  intro m
  induction m with
  | nil => intro s p; simp [setPos, getPos]
  | cons kv rest ih =>
    intro s p
    by_cases h : kv.1 = s <;> simp [setPos, getPos, h, ih]

theorem getPos_setPos_ne : ∀ (m : List (String × Pos)) (s' : String) (p : Pos) (s : String),
    s' ≠ s → getPos (setPos m s' p) s = getPos m s := by
  intro m
  induction m with
  | nil => intro s' p s h; simp [setPos, getPos, h]
  | cons kv rest ih =>
    intro s' p s h
    by_cases hk : kv.1 = s'
    · simp [setPos, hk, getPos, h]
    · by_cases hs : kv.1 = s <;> simp [setPos, hk, getPos, hs, ih _ _ _ h, Ne.symm h]

theorem mem_setPos : ∀ (m : List (String × Pos)) (s : String) (p : Pos) (kv : String × Pos),
    kv ∈ setPos m s p → kv = (s, p) ∨ kv ∈ m := by
  intro m
  induction m with
  | nil => intro s p kv h; simpa [setPos] using h
  | cons kv0 rest ih =>
    intro s p kv h
    by_cases hk : kv0.1 = s
    · simp only [setPos, if_pos hk, List.mem_cons] at h
      rcases h with h | h
      · exact Or.inl h
      · exact Or.inr (List.mem_cons_of_mem _ h)
    · simp only [setPos, if_neg hk, List.mem_cons] at h
      rcases h with h | h
      · exact Or.inr (h ▸ List.mem_cons_self _ _)
      · rcases ih s p kv h with h' | h'
        · exact Or.inl h'
        · exact Or.inr (List.mem_cons_of_mem _ h')

/-- Every `getPos` result is either an entry's value or the fresh default. -/
theorem getPos_cases : ∀ (m : List (String × Pos)) (s : String),
    (∃ kv ∈ m, kv.1 = s ∧ getPos m s = kv.2) ∨ getPos m s = (⟨0, []⟩ : Pos) := by
  intro m
  induction m with
  | nil => intro s; exact Or.inr rfl
  | cons kv rest ih =>
    intro s
    by_cases hk : kv.1 = s
    · exact Or.inl ⟨kv, List.mem_cons_self _ _, hk, by simp [getPos, hk]⟩
    · rcases ih s with ⟨kv', h1, h2, h3⟩ | h
      · exact Or.inl ⟨kv', List.mem_cons_of_mem _ h1, h2, by simp [getPos, hk, h3]⟩
      · exact Or.inr (by simp [getPos, hk, h])

/-! ### Accounting lemmas for the two row walks -/

theorem closeWalk_net (pr : ℚ) (ti da : Nat) :
    ∀ (rows : List Row) (rem : Int),
      (((closeWalk pr ti da rows rem).1.map rowNet).sum : Int)
        = ((rows.map rowNet).sum + (closeWalk pr ti da rows rem).2 - rem : Int) := by
  intro rows
  induction rows with
  | nil => intro rem; simp [closeWalk]
  | cons r rest ih =>
    intro rem
    by_cases h : r.side = Side.BUY ∧ r.exitQty = none ∧ 0 < rem
    · simp only [closeWalk, if_pos h, List.map_cons, List.sum_cons]
      rw [ih]
      simp [rowNet, h.2.1]
      ring
    · simp only [closeWalk, if_neg h, List.map_cons, List.sum_cons]
      rw [ih]
      ring

theorem closeWalk_rem_nonneg (pr : ℚ) (ti da : Nat) :
    ∀ (rows : List Row) (rem : Int), 0 ≤ rem → 0 ≤ (closeWalk pr ti da rows rem).2 := by
  intro rows
  induction rows with
  | nil => intro rem h; simpa [closeWalk] using h
  | cons r rest ih =>
    intro rem h
    by_cases hc : r.side = Side.BUY ∧ r.exitQty = none ∧ 0 < rem
    · simp only [closeWalk, if_pos hc]
      exact ih _ (by simp [sub_nonneg, min_le_left])
    · simp only [closeWalk, if_neg hc]
      exact ih _ h

theorem coverWalk_net (pr : ℚ) (ti da : Nat) :
    ∀ (rows : List Row) (cover : Int),
      (((coverWalk pr ti da rows cover).1.map rowNet).sum : Int)
        = ((rows.map rowNet).sum + cover - (coverWalk pr ti da rows cover).2 : Int) := by
  intro rows
  induction rows with
  | nil => intro cover; simp [coverWalk]
  | cons r rest ih =>
    intro cover
    by_cases h : r.side = Side.SELL ∧ r.exitQty = none ∧ 0 < cover
    · simp only [coverWalk, if_pos h, List.map_cons, List.sum_cons]
      rw [ih]
      simp [rowNet, h.2.1]
      ring
    · simp only [coverWalk, if_neg h, List.map_cons, List.sum_cons]
      rw [ih]
      ring

theorem coverWalk_cover_nonneg (pr : ℚ) (ti da : Nat) :
    ∀ (rows : List Row) (cover : Int), 0 ≤ cover → 0 ≤ (coverWalk pr ti da rows cover).2 := by
  intro rows
  induction rows with
  | nil => intro cover h; simpa [coverWalk] using h
  | cons r rest ih =>
    intro cover h
    by_cases hc : r.side = Side.SELL ∧ r.exitQty = none ∧ 0 < cover
    · simp only [coverWalk, if_pos hc]
      exact ih _ (by simp [sub_nonneg, min_le_left])
    · simp only [coverWalk, if_neg hc]
      exact ih _ h

theorem coverRows_net (pr : ℚ) (ti da : Nat) (rows : List Row) (cover : Int) :
    (((coverRows pr ti da rows cover).1.map rowNet).sum : Int)
      = ((rows.map rowNet).sum + cover - (coverRows pr ti da rows cover).2 : Int) := by
  unfold coverRows
  simp only [List.map_reverse, List.sum_reverse]
  rw [coverWalk_net]
  simp [List.map_reverse, List.sum_reverse]

/-! ### The conservation step: each trade moves a symbol's net by its
signed quantity -/

theorem applyLong_net (t : Trade) (p : Pos) (hq : 0 < t.quantity) :
    (((applyLong t p).trades.map rowNet).sum : Int)
      = ((p.trades.map rowNet).sum + t.quantity : Int) := by
  unfold applyLong
  by_cases hpq : p.qty < 0
  · simp only [if_pos hpq]
    have hc0 : (0 : Int) ≤ min t.quantity (|p.qty|) := le_min hq.le (abs_nonneg _)
    have h2 : 0 ≤ (coverRows t.price t.time t.date p.trades (min t.quantity (|p.qty|))).2 := by
      unfold coverRows
      exact coverWalk_cover_nonneg _ _ _ _ _ hc0
    have hnet := coverRows_net t.price t.time t.date p.trades (min t.quantity (|p.qty|))
    have hcle : min t.quantity (|p.qty|) ≤ t.quantity := min_le_left _ _
    by_cases hrem : 0 < t.quantity -
        (min t.quantity (|p.qty|) -
          (coverRows t.price t.time t.date p.trades (min t.quantity (|p.qty|))).2)
    · simp only [if_pos hrem, List.map_append, List.sum_append, List.map_cons, List.sum_cons,
        List.map_nil, List.sum_nil, rowNet, newRow]
      simp only [Option.getD_none, add_zero]
      omega
    · simp only [if_neg hrem]
      omega
  · simp only [if_neg hpq, if_pos hq, List.map_append, List.sum_append, List.map_cons,
      List.sum_cons, List.map_nil, List.sum_nil, rowNet, newRow]
    simp only [Option.getD_none, add_zero]

theorem applyShort_net (t : Trade) (p : Pos) (hq : 0 < t.quantity) :
    (((applyShort t p).trades.map rowNet).sum : Int)
      = ((p.trades.map rowNet).sum - t.quantity : Int) := by
  unfold applyShort
  have h0 := closeWalk_rem_nonneg t.price t.time t.date p.trades t.quantity hq.le
  have hnet := closeWalk_net t.price t.time t.date p.trades t.quantity
  by_cases hrem : 0 < (closeWalk t.price t.time t.date p.trades t.quantity).2
  · simp only [if_pos hrem, List.map_append, List.sum_append, List.map_cons, List.sum_cons,
      List.map_nil, List.sum_nil, rowNet, newRow]
    simp only [Option.getD_none, add_zero]
    omega
  · simp only [if_neg hrem]
    omega

theorem symNet_applyTrade (m : List (String × Pos)) (t : Trade) (s : String)
    (hq : 0 < t.quantity) (hside : t.side = Side.LONG ∨ t.side = Side.SHORT) :
    symNet (applyTrade m t) s = symNet m s + (if t.symbol = s then tradeSigned t else 0) := by
  by_cases hs : t.symbol = s
  · subst hs
    rcases hside with h | h
    · unfold applyTrade
      rw [if_pos h]
      unfold symNet
      rw [getPos_setPos_self, applyLong_net t _ hq]
      simp [tradeSigned, h]
    · unfold applyTrade
      rw [if_neg (by simp [h]), if_pos h]
      unfold symNet
      rw [getPos_setPos_self, applyShort_net t _ hq]
      simp [tradeSigned, h]
      omega
  · have hgp : getPos (applyTrade m t) s = getPos m s := by
      unfold applyTrade
      by_cases h1 : t.side = Side.LONG
      · rw [if_pos h1, getPos_setPos_ne _ _ _ _ hs]
      · rw [if_neg h1]
        by_cases h2 : t.side = Side.SHORT
        · rw [if_pos h2, getPos_setPos_ne _ _ _ _ hs]
        · rw [if_neg h2, getPos_setPos_ne _ _ _ _ hs]
    unfold symNet
    rw [hgp, if_neg hs, add_zero]

theorem symNet_foldl : ∀ (l : List Trade) (m : List (String × Pos)) (s : String),
    (∀ t ∈ l, 0 < t.quantity ∧ (t.side = Side.LONG ∨ t.side = Side.SHORT)) →
    symNet (l.foldl applyTrade m) s
      = symNet m s + ((l.filter (fun t => t.symbol == s)).map tradeSigned).sum := by
  intro l
  induction l with
  | nil => intro m s _; simp
  | cons t l ih =>
    intro m s h
    have ht := h t (List.mem_cons_self _ _)
    rw [List.foldl_cons, ih _ _ (fun u hu => h u (List.mem_cons_of_mem _ hu)),
      symNet_applyTrade m t s ht.1 ht.2]
    by_cases hs : t.symbol = s
    · simp only [List.filter_cons, hs, if_pos rfl, beq_self_eq_true, ite_true,
        List.map_cons, List.sum_cons]
      omega
    · have : (t.symbol == s) = false := by simp [hs]
      simp only [List.filter_cons, this, Bool.false_eq_true, ite_false, if_neg hs, add_zero]

/-! ### Row well-formedness: sign discipline and exit bounds -/

/-- The sign discipline the source maintains on stored rows: BUY rows carry
positive `Qty` and non-positive `Exit Qty`, SELL rows negative `Qty` and
non-negative `Exit Qty`, and the exit magnitude never exceeds the entry
magnitude. -/
def RowGood (r : Row) : Prop :=
  (r.side = Side.BUY ∨ r.side = Side.SELL) ∧
  (r.side = Side.BUY → 0 < r.qty) ∧
  (r.side = Side.SELL → r.qty < 0) ∧
  ∀ e, r.exitQty = some e →
    (|e|) ≤ (|r.qty|) ∧ (r.side = Side.BUY → e ≤ 0) ∧ (r.side = Side.SELL → 0 ≤ e)

theorem rowGood_closeUpd (r : Row) (pr : ℚ) (ti da : Nat) (rem : Int)
    (hg : RowGood r) (hb : r.side = Side.BUY) (hrem : 0 < rem) :
    RowGood { r with exitQty := some (-(min rem r.qty)), exitPrice := some pr,
                     exitTime := some ti, exitDate := some da } := by
  have hq : 0 < r.qty := hg.2.1 hb
  have hpc0 : 0 < min rem r.qty := lt_min hrem hq
  have hpc1 : min rem r.qty ≤ r.qty := min_le_right _ _
  refine ⟨Or.inl hb, fun _ => hq, fun hsell => ?_, fun e he => ?_⟩
  · rw [hb] at hsell; exact absurd hsell (by decide)
  · obtain rfl : e = -(min rem r.qty) := (Option.some.inj he).symm
    refine ⟨?_, fun _ => by omega, fun hsell => ?_⟩
    · rw [abs_neg, abs_of_pos hpc0, abs_of_pos hq]; exact hpc1
    · rw [hb] at hsell; exact absurd hsell (by decide)

theorem rowGood_coverUpd (r : Row) (pr : ℚ) (ti da : Nat) (cover : Int)
    (hg : RowGood r) (hs : r.side = Side.SELL) (hcov : 0 < cover) :
    RowGood { r with exitQty := some (min cover (|r.qty|)), exitPrice := some pr,
                     exitTime := some ti, exitDate := some da } := by
  have hq : r.qty < 0 := hg.2.2.1 hs
  have habs : 0 < |r.qty| := abs_pos.mpr (ne_of_lt hq)
  have hpc0 : 0 < min cover (|r.qty|) := lt_min hcov habs
  have hpc1 : min cover (|r.qty|) ≤ |r.qty| := min_le_right _ _
  refine ⟨Or.inr hs, fun hbuy => ?_, fun _ => hq, fun e he => ?_⟩
  · rw [hs] at hbuy; exact absurd hbuy (by decide)
  · obtain rfl : e = min cover (|r.qty|) := (Option.some.inj he).symm
    refine ⟨?_, fun hbuy => ?_, fun _ => hpc0.le⟩
    · rw [abs_of_pos hpc0]; exact hpc1
    · rw [hs] at hbuy; exact absurd hbuy (by decide)

theorem rowGood_newRow_buy (sym : String) (q : Int) (pr : ℚ) (ti da : Nat) (hq : 0 < q) :
    RowGood (newRow sym q Side.BUY pr ti da) :=
  ⟨Or.inl rfl, fun _ => hq, fun h => by simp [newRow] at h, fun _ he => Option.noConfusion he⟩

theorem rowGood_newRow_sell (sym : String) (q : Int) (pr : ℚ) (ti da : Nat) (hq : q < 0) :
    RowGood (newRow sym q Side.SELL pr ti da) :=
  ⟨Or.inr rfl, fun h => by simp [newRow] at h, fun _ => hq, fun _ he => Option.noConfusion he⟩

theorem rowGood_closeWalk (pr : ℚ) (ti da : Nat) :
    ∀ (rows : List Row) (rem : Int), (∀ r ∈ rows, RowGood r) →
      ∀ r' ∈ (closeWalk pr ti da rows rem).1, RowGood r' := by
  intro rows
  induction rows with
  | nil => intro rem _ r' hr'; simp [closeWalk] at hr'
  | cons r rest ih =>
    intro rem h r' hr'
    have hr := h r (List.mem_cons_self _ _)
    have hrest := fun u hu => h u (List.mem_cons_of_mem _ hu)
    by_cases hc : r.side = Side.BUY ∧ r.exitQty = none ∧ 0 < rem
    · simp only [closeWalk, if_pos hc, List.mem_cons] at hr'
      rcases hr' with hr' | hr'
      · exact hr' ▸ rowGood_closeUpd r pr ti da rem hr hc.1 hc.2.2
      · exact ih _ hrest r' hr'
    · simp only [closeWalk, if_neg hc, List.mem_cons] at hr'
      rcases hr' with hr' | hr'
      · exact hr' ▸ hr
      · exact ih _ hrest r' hr'

theorem rowGood_coverWalk (pr : ℚ) (ti da : Nat) :
    ∀ (rows : List Row) (cover : Int), (∀ r ∈ rows, RowGood r) →
      ∀ r' ∈ (coverWalk pr ti da rows cover).1, RowGood r' := by
  intro rows
  induction rows with
  | nil => intro cover _ r' hr'; simp [coverWalk] at hr'
  | cons r rest ih =>
    intro cover h r' hr'
    have hr := h r (List.mem_cons_self _ _)
    have hrest := fun u hu => h u (List.mem_cons_of_mem _ hu)
    by_cases hc : r.side = Side.SELL ∧ r.exitQty = none ∧ 0 < cover
    · simp only [coverWalk, if_pos hc, List.mem_cons] at hr'
      rcases hr' with hr' | hr'
      · exact hr' ▸ rowGood_coverUpd r pr ti da cover hr hc.1 hc.2.2
      · exact ih _ hrest r' hr'
    · simp only [coverWalk, if_neg hc, List.mem_cons] at hr'
      rcases hr' with hr' | hr'
      · exact hr' ▸ hr
      · exact ih _ hrest r' hr'

theorem rowGood_coverRows (pr : ℚ) (ti da : Nat) (rows : List Row) (cover : Int)
    (h : ∀ r ∈ rows, RowGood r) :
    ∀ r' ∈ (coverRows pr ti da rows cover).1, RowGood r' := by
  intro r' hr'
  unfold coverRows at hr'
  simp only [List.mem_reverse] at hr'
  exact rowGood_coverWalk pr ti da rows.reverse cover
    (fun u hu => h u (List.mem_reverse.mp hu)) r' hr'

/-- Splitting membership in a conditionally extended row list. -/
theorem mem_ite_append {c : Prop} [Decidable c] {a : List Row} {x r : Row}
    (h : r ∈ (if c then a ++ [x] else a)) : r ∈ a ∨ (c ∧ r = x) := by
  by_cases hc : c
  · rw [if_pos hc] at h
    rcases List.mem_append.mp h with h | h
    · exact Or.inl h
    · exact Or.inr ⟨hc, by simpa using h⟩
  · rw [if_neg hc] at h
    exact Or.inl h

theorem rowGood_applyLong (t : Trade) (p : Pos) (h : ∀ r ∈ p.trades, RowGood r) :
    ∀ r ∈ (applyLong t p).trades, RowGood r := by
  intro r hr
  unfold applyLong at hr
  by_cases hpq : p.qty < 0
  · simp only [if_pos hpq] at hr
    rcases mem_ite_append hr with hr | ⟨hc, rfl⟩
    · exact rowGood_coverRows _ _ _ _ _ h r hr
    · exact rowGood_newRow_buy _ _ _ _ _ hc
  · simp only [if_neg hpq] at hr
    rcases mem_ite_append hr with hr | ⟨hc, rfl⟩
    · exact h r hr
    · exact rowGood_newRow_buy _ _ _ _ _ hc

theorem rowGood_applyShort (t : Trade) (p : Pos) (h : ∀ r ∈ p.trades, RowGood r) :
    ∀ r ∈ (applyShort t p).trades, RowGood r := by
  intro r hr
  unfold applyShort at hr
  rcases mem_ite_append hr with hr | ⟨hc, rfl⟩
  · exact rowGood_closeWalk _ _ _ _ _ h r hr
  · exact rowGood_newRow_sell _ _ _ _ _ (by omega)

/-- Every reachable `positions` state consists of well-formed rows. -/
def GoodState (m : List (String × Pos)) : Prop :=
  ∀ kv ∈ m, ∀ r ∈ kv.2.trades, RowGood r

theorem goodState_getPos (m : List (String × Pos)) (s : String) (h : GoodState m) :
    ∀ r ∈ (getPos m s).trades, RowGood r := by
  rcases getPos_cases m s with ⟨kv, hkv, _, hg⟩ | hg
  · rw [hg]; exact h kv hkv
  · rw [hg]; intro r hr; simp at hr

theorem goodState_applyTrade (m : List (String × Pos)) (t : Trade) (h : GoodState m) :
    GoodState (applyTrade m t) := by
  have hp := goodState_getPos m t.symbol h
  have hset : ∀ p' : Pos, (∀ r ∈ p'.trades, RowGood r) → GoodState (setPos m t.symbol p') := by
    intro p' hp' kv hkv r hr
    rcases mem_setPos m t.symbol p' kv hkv with h' | h'
    · rw [h'] at hr
      exact hp' r hr
    · exact h kv h' r hr
  unfold applyTrade
  by_cases h1 : t.side = Side.LONG
  · rw [if_pos h1]
    exact hset _ (rowGood_applyLong t _ hp)
  · rw [if_neg h1]
    by_cases h2 : t.side = Side.SHORT
    · rw [if_pos h2]
      exact hset _ (rowGood_applyShort t _ hp)
    · rw [if_neg h2]
      exact hset _ hp

theorem goodState_foldl : ∀ (l : List Trade) (m : List (String × Pos)),
    GoodState m → GoodState (l.foldl applyTrade m) := by
  intro l
  induction l with
  | nil => intro m h; exact h
  | cons t l ih => intro m h; exact ih _ (goodState_applyTrade m t h)

/-- On well-formed rows the spec-level signed net and the stored-field net
coincide. -/
theorem specSignedNet_eq_rowNet (r : Row) (hg : RowGood r) : specSignedNet r = rowNet r := by
  obtain ⟨hside, hbuy, hsell, hexit⟩ := hg
  unfold specSignedNet rowNet
  rcases hside with hb | hs
  · have hq := hbuy hb
    rw [if_pos hb]
    cases hx : r.exitQty with
    | none =>
      simp only [hx, Option.getD_none, abs_zero, sub_zero, one_mul, add_zero]
      rw [abs_of_pos hq]
    | some e =>
      have he : e ≤ 0 := (hexit e hx).2.1 hb
      simp only [hx, Option.getD_some, one_mul]
      rw [abs_of_pos hq, abs_of_nonpos he]; ring
  · have hq := hsell hs
    have hbne : ¬(r.side = Side.BUY) := by rw [hs]; decide
    rw [if_neg hbne]
    cases hx : r.exitQty with
    | none =>
      simp only [hx, Option.getD_none, abs_zero, sub_zero]
      rw [abs_of_neg hq]; ring
    | some e =>
      have he : 0 ≤ e := (hexit e hx).2.2 hs
      simp only [hx, Option.getD_some]
      rw [abs_of_neg hq, abs_of_nonneg he]; ring

/-! ### C2: the conservation invariant -/

/-- C2: for every symbol and every prefix of the sorted trade sequence, the
sum over the symbol's ledger rows of `signed(entryQuantity − exitQuantity,
direction)` equals the sum of `signed(quantity, direction)` over the
consolidated trades for that symbol processed so far. -/
theorem C2_conservation (ts : List Trade)
    (h : ∀ t ∈ ts, 0 < t.quantity ∧ (t.side = Side.LONG ∨ t.side = Side.SHORT))
    (s : String) (n : Nat) :
    ((getPos (((sortTrades ts).take n).foldl applyTrade []) s).trades.map specSignedNet).sum
      = ((((sortTrades ts).take n).filter (fun t => t.symbol == s)).map tradeSigned).sum := by
  have hmem : ∀ t ∈ (sortTrades ts).take n,
      0 < t.quantity ∧ (t.side = Side.LONG ∨ t.side = Side.SHORT) := by
    intro t ht
    exact h t ((List.perm_insertionSort tradeLE ts).subset (List.mem_of_mem_take ht))
  have hgood : GoodState (((sortTrades ts).take n).foldl applyTrade []) :=
    goodState_foldl _ [] (fun kv hkv => absurd hkv (List.not_mem_nil kv))
  have hrw :
      ((getPos (((sortTrades ts).take n).foldl applyTrade []) s).trades.map specSignedNet)
        = ((getPos (((sortTrades ts).take n).foldl applyTrade []) s).trades.map rowNet) :=
    List.map_congr_left (fun r hr => specSignedNet_eq_rowNet r (goodState_getPos _ _ hgood r hr))
  rw [hrw]
  have hfold := symNet_foldl ((sortTrades ts).take n) [] s hmem
  unfold symNet at hfold
  simpa [getPos] using hfold

/-- Witness for `C2_conservation` on a concrete three-trade run. -/
theorem C2_witness :
    ((getPos (((sortTrades tsC3).take 3).foldl applyTrade []) "A").trades.map specSignedNet).sum
      = ((((sortTrades tsC3).take 3).filter (fun t => t.symbol == "A")).map tradeSigned).sum :=
  C2_conservation tsC3 (by decide) "A" 3

/-! ### C5: bounds and signs of stored exit quantities -/

/-- C5 counterexample: after a LONG 60 is closed by a SHORT 60, the stored
`Exit Qty` of the long row is −60, which is negative — the source stores
`Exit Qty = -pos_close` on BUY rows, so the claim `0 ≤ exitQuantity` fails
on the stored field. -/
theorem C5_counterexample :
    (match_trades_fifo [] tsC5).map Row.exitQty = [some (-60)] ∧ ¬(0 ≤ (-60 : Int)) := by
  decide

/-- C5 amended: at every point during matching, every row with a stored
exit satisfies `|Exit Qty| ≤ |Qty|` — the exit magnitude never exceeds the
entry magnitude — and the stored value is non-positive on BUY (LONG) rows
and non-negative on SELL (SHORT) rows. -/
theorem C5_amended (ts : List Trade) (n : Nat) (kv : String × Pos)
    (hkv : kv ∈ ((sortTrades ts).take n).foldl applyTrade []) (r : Row) (hr : r ∈ kv.2.trades)
    (e : Int) (he : r.exitQty = some e) :
    (|e|) ≤ (|r.qty|) ∧ (r.side = Side.BUY → e ≤ 0) ∧ (r.side = Side.SELL → 0 ≤ e) :=
  (goodState_foldl ((sortTrades ts).take n) []
    (fun kv0 hkv0 => absurd hkv0 (List.not_mem_nil kv0)) kv hkv r hr).2.2.2 e he

/-- The closed long row produced by `tsC5`. -/
def c5Row : Row := ⟨"A", 60, Side.BUY, 1, 0, 1, "", some (-60), some 2, some 0, some 2⟩

/-- Witness for `C5_amended` on the `tsC5` run. -/
theorem C5_witness :
    (|(-60 : Int)|) ≤ (|c5Row.qty|) ∧ (c5Row.side = Side.BUY → (-60 : Int) ≤ 0) ∧
      (c5Row.side = Side.SELL → (0 : Int) ≤ -60) :=
  C5_amended tsC5 2 ("A", ⟨0, [c5Row]⟩) (by decide) c5Row (by decide) (-60) rfl

/-! ### C3: partially-closed lots are never matched again -/

/-- A row whose `Exit Qty` is already set is left untouched by the SELL
walk (the candidate test requires `Exit Qty is None`). -/
theorem closeWalk_mem_closed (pr : ℚ) (ti da : Nat) :
    ∀ (rows : List Row) (rem : Int) (r : Row), r ∈ rows → r.exitQty ≠ none →
      r ∈ (closeWalk pr ti da rows rem).1 := by
  intro rows
  induction rows with
  | nil => intro rem r hr _; simp at hr
  | cons a rest ih =>
    intro rem r hr hx
    by_cases hc : a.side = Side.BUY ∧ a.exitQty = none ∧ 0 < rem
    · simp only [closeWalk, if_pos hc, List.mem_cons]
      rcases List.mem_cons.mp hr with hr | hr
      · exact absurd (hr ▸ hx) (by simp [hc.2.1, hr])
      · exact Or.inr (ih _ r hr hx)
    · simp only [closeWalk, if_neg hc, List.mem_cons]
      rcases List.mem_cons.mp hr with hr | hr
      · exact Or.inl hr
      · exact Or.inr (ih _ r hr hx)

/-- Same for the BUY cover walk. -/
theorem coverWalk_mem_closed (pr : ℚ) (ti da : Nat) :
    ∀ (rows : List Row) (cover : Int) (r : Row), r ∈ rows → r.exitQty ≠ none →
      r ∈ (coverWalk pr ti da rows cover).1 := by
  intro rows
  induction rows with
  | nil => intro cover r hr _; simp at hr
  | cons a rest ih =>
    intro cover r hr hx
    by_cases hc : a.side = Side.SELL ∧ a.exitQty = none ∧ 0 < cover
    · simp only [coverWalk, if_pos hc, List.mem_cons]
      rcases List.mem_cons.mp hr with hr | hr
      · exact absurd (hr ▸ hx) (by simp [hc.2.1, hr])
      · exact Or.inr (ih _ r hr hx)
    · simp only [coverWalk, if_neg hc, List.mem_cons]
      rcases List.mem_cons.mp hr with hr | hr
      · exact Or.inl hr
      · exact Or.inr (ih _ r hr hx)

theorem coverRows_mem_closed (pr : ℚ) (ti da : Nat) (rows : List Row) (cover : Int)
    (r : Row) (hr : r ∈ rows) (hx : r.exitQty ≠ none) :
    r ∈ (coverRows pr ti da rows cover).1 := by
  unfold coverRows
  simp only [List.mem_reverse]
  exact coverWalk_mem_closed pr ti da rows.reverse cover r (List.mem_reverse.mpr hr) hx

/-- Membership in the kept part of a conditionally extended row list. -/
theorem mem_ite_append_left {c : Prop} [Decidable c] {a : List Row} {x r : Row}
    (h : r ∈ a) : r ∈ (if c then a ++ [x] else a) := by
  by_cases hc : c
  · rw [if_pos hc]; exact List.mem_append_left _ h
  · rw [if_neg hc]; exact h

/-- C3 counterexample: on `LONG 100; SHORT 30; SHORT 50` the partially
closed 100-lot (exit −30, still 70 available) is NOT selected by the later
SHORT 50 — its exit stays −30 instead of accumulating to −80 — and the
residual 50 opens a fresh SELL row instead. -/
theorem C3_counterexample :
    (match_trades_fifo [] tsC3).map (fun r => (r.entryDate, r.qty, r.exitQty))
      = [(1, 100, some (-30)), (3, -50, none)] := by
  decide

/-- C3 amended: a row whose `Exit Qty` is set — fully or partially closed —
is never a matching candidate again: `applyTrade` passes it through
unchanged (the source's candidate test requires `Exit Qty is None`), so
exit fields are written at most once and never accumulate; residual
quantity opens a new row instead. -/
theorem C3_amended (m : List (String × Pos)) (t : Trade) (s : String) (r : Row)
    (hr : r ∈ (getPos m s).trades) (hx : r.exitQty ≠ none) :
    r ∈ (getPos (applyTrade m t) s).trades := by
  unfold applyTrade
  by_cases hs : t.symbol = s
  · subst hs
    by_cases h1 : t.side = Side.LONG
    · rw [if_pos h1, getPos_setPos_self]
      unfold applyLong
      by_cases hpq : (getPos m t.symbol).qty < 0
      · simp only [if_pos hpq]
        exact mem_ite_append_left (coverRows_mem_closed t.price t.time t.date _ _ r hr hx)
      · simp only [if_neg hpq]
        exact mem_ite_append_left hr
    · rw [if_neg h1]
      by_cases h2 : t.side = Side.SHORT
      · rw [if_pos h2, getPos_setPos_self]
        unfold applyShort
        exact mem_ite_append_left (closeWalk_mem_closed t.price t.time t.date _ _ r hr hx)
      · rw [if_neg h2, getPos_setPos_self]
        exact hr
  · by_cases h1 : t.side = Side.LONG
    · rw [if_pos h1, getPos_setPos_ne _ _ _ _ hs]
      exact hr
    · rw [if_neg h1]
      by_cases h2 : t.side = Side.SHORT
      · rw [if_pos h2, getPos_setPos_ne _ _ _ _ hs]
        exact hr
      · rw [if_neg h2, getPos_setPos_ne _ _ _ _ hs]
        exact hr

/-- The partially closed long row produced by the first two trades of
`tsC3`. -/
def c3Row : Row := ⟨"A", 100, Side.BUY, 1, 0, 1, "", some (-30), some 2, some 0, some 2⟩

/-- Witness for `C3_amended`: a SHORT 50 leaves the already-partially-closed
100-lot untouched in the ledger. -/
theorem C3_witness :
    c3Row ∈ (getPos (applyTrade [("A", ⟨70, [c3Row]⟩)] ⟨"A", 3, 0, 50, 3, Side.SHORT⟩)
      "A").trades :=
  C3_amended [("A", ⟨70, [c3Row]⟩)] ⟨"A", 3, 0, 50, 3, Side.SHORT⟩ "A" c3Row
    (by decide) (by decide)

/-! ### C6: the uncovered-short row, amended -/

/-- When no row is an eligible BUY candidate the SELL walk is the
identity. -/
theorem closeWalk_id_of_none (pr : ℚ) (ti da : Nat) :
    ∀ (rows : List Row) (rem : Int),
      (∀ r ∈ rows, ¬(r.side = Side.BUY ∧ r.exitQty = none)) →
      closeWalk pr ti da rows rem = (rows, rem) := by
  intro rows
  induction rows with
  | nil => intro rem _; rfl
  | cons a rest ih =>
    intro rem h
    have hc : ¬(a.side = Side.BUY ∧ a.exitQty = none ∧ 0 < rem) := by
      rintro ⟨h1, h2, -⟩
      exact h a (List.mem_cons_self _ _) ⟨h1, h2⟩
    simp only [closeWalk, if_neg hc, ih _ (fun u hu => h u (List.mem_cons_of_mem _ hu))]

/-- C6 amended: a SHORT trade processed while no open LONG lots exist for
its symbol (no BUY row with `Exit Qty` unset) appends exactly one new row:
side SELL, `Qty = -quantity`, `Exit Qty` null — and `Notes` is the empty
string, not `"Short Position"`. -/
theorem C6_amended (m : List (String × Pos)) (t : Trade) (ht : t.side = Side.SHORT)
    (hq : 0 < t.quantity)
    (hopen : ∀ r ∈ (getPos m t.symbol).trades, ¬(r.side = Side.BUY ∧ r.exitQty = none)) :
    (getPos (applyTrade m t) t.symbol).trades
      = (getPos m t.symbol).trades
          ++ [newRow t.symbol (-t.quantity) Side.SELL t.price t.time t.date]
    ∧ (newRow t.symbol (-t.quantity) Side.SELL t.price t.time t.date).notes = ""
    ∧ (newRow t.symbol (-t.quantity) Side.SELL t.price t.time t.date).exitQty = none := by
  have hLne : ¬(t.side = Side.LONG) := by rw [ht]; decide
  refine ⟨?_, rfl, rfl⟩
  unfold applyTrade
  rw [if_neg hLne, if_pos ht, getPos_setPos_self]
  unfold applyShort
  rw [closeWalk_id_of_none t.price t.time t.date _ t.quantity hopen]
  simp only [if_pos hq]

/-- A fresh uncovered short trade for the `C6_amended` witness. -/
def c6t : Trade := ⟨"B", 1, 0, 7, 3, Side.SHORT⟩

/-- Witness for `C6_amended` on an empty book. -/
theorem C6_witness :
    (getPos (applyTrade [] c6t) c6t.symbol).trades
      = (getPos [] c6t.symbol).trades
          ++ [newRow c6t.symbol (-c6t.quantity) Side.SELL c6t.price c6t.time c6t.date]
    ∧ (newRow c6t.symbol (-c6t.quantity) Side.SELL c6t.price c6t.time c6t.date).notes = ""
    ∧ (newRow c6t.symbol (-c6t.quantity) Side.SELL c6t.price c6t.time c6t.date).exitQty = none :=
  C6_amended [] c6t rfl (by decide) (by decide)

/-! ### C8: consolidation on fresh keys is a per-trade copy -/

theorem dictInsert_append : ∀ (m : List ((String × Nat × Side) × Trade))
    (k : String × Nat × Side) (t : Trade),
    (∀ kv ∈ m, kv.1 ≠ k) → dictInsert m k t = m ++ [(k, t)] := by
  intro m
  induction m with
  | nil => intro k t _; rfl
  | cons kv rest ih =>
    intro k t h
    have hk : ¬(kv.1 = k) := h kv (List.mem_cons_self _ _)
    simp only [dictInsert, if_neg hk, List.cons_append,
      ih k t (fun u hu => h u (List.mem_cons_of_mem _ hu))]

/-- The side rewrite keeps symbol and date, so distinct `(symbol, date)`
pairs give distinct consolidation keys. -/
theorem ckey_updSide_ne {a b : Trade} (h : (a.symbol, a.date) ≠ (b.symbol, b.date)) :
    ckey (updSide a) ≠ ckey (updSide b) := by
  intro he
  apply h
  have h1 : a.symbol = b.symbol := congrArg Prod.fst he
  have h2 : a.date = b.date := congrArg (fun x => x.2.1) he
  rw [h1, h2]

theorem consolidate_foldl_fresh : ∀ (l : List Trade)
    (acc : List ((String × Nat × Side) × Trade)),
    ((l.map fun t => (t.symbol, t.date)).Pairwise (· ≠ ·)) →
    (∀ t ∈ l, ∀ kv ∈ acc, kv.1 ≠ ckey (updSide t)) →
    l.foldl (fun m t0 => let t := updSide t0; dictInsert m (ckey t) t) acc
      = acc ++ l.map (fun t => (ckey (updSide t), updSide t)) := by
  intro l
  induction l with
  | nil => intro acc _ _; simp
  | cons t l ih =>
    intro acc hpair hacc
    rw [List.foldl_cons]
    have hstep : (let u := updSide t; dictInsert acc (ckey u) u)
        = acc ++ [(ckey (updSide t), updSide t)] :=
      dictInsert_append acc _ _ (fun kv hkv => hacc t (List.mem_cons_self _ _) kv hkv)
    rw [hstep]
    rw [List.map_cons, List.pairwise_cons] at hpair
    have hacc' : ∀ u ∈ l, ∀ kv ∈ acc ++ [(ckey (updSide t), updSide t)],
        kv.1 ≠ ckey (updSide u) := by
      intro u hu kv hkv
      rcases List.mem_append.mp hkv with hkv | hkv
      · exact hacc u (List.mem_cons_of_mem _ hu) kv hkv
      · have : kv = (ckey (updSide t), updSide t) := by simpa using hkv
        rw [this]
        exact ckey_updSide_ne (hpair.1 _ (List.mem_map_of_mem _ hu))
    rw [ih _ hpair.2 hacc']
    simp

/-- C8 amended: when no two trades of the list share a `(symbol, date)`
pair — which is how `consolidate_trades`'s own output looks whenever a
symbol traded in only one direction per day — re-running the consolidation
is a pure copy with the side rewritten, so all quantities and prices are
preserved.  (When a symbol has both a LONG and a SHORT group on one day,
`C8_counterexample` shows the second run merges them instead.) -/
theorem C8_amended (l : List Trade)
    (h : (l.map fun t => (t.symbol, t.date)).Pairwise (· ≠ ·)) :
    consolidate_trades l = l.map updSide
    ∧ (consolidate_trades l).map Trade.quantity = l.map Trade.quantity
    ∧ (consolidate_trades l).map Trade.price = l.map Trade.price := by
  have hmain : consolidate_trades l = l.map updSide := by
    unfold consolidate_trades
    rw [consolidate_foldl_fresh l [] h (fun t _ kv hkv => absurd hkv (List.not_mem_nil kv))]
    simp only [List.nil_append, List.map_map]
    rfl
  refine ⟨hmain, ?_, ?_⟩ <;> rw [hmain, List.map_map] <;> rfl

/-- Two one-direction-per-day consolidated trades, for the `C8_amended`
witness. -/
def c8fresh : List Trade :=
  [⟨"A", 1, 0, 1, 1, Side.LONG⟩, ⟨"B", 2, 0, 2, 4, Side.SHORT⟩]

/-- Witness for `C8_amended` on a distinct-key list. -/
theorem C8_witness :
    consolidate_trades c8fresh = c8fresh.map updSide
    ∧ (consolidate_trades c8fresh).map Trade.quantity = c8fresh.map Trade.quantity
    ∧ (consolidate_trades c8fresh).map Trade.price = c8fresh.map Trade.price :=
  C8_amended c8fresh (by decide)

/-! ### C10: the internal stable sort -/

theorem keyLE_refl (a : Nat × Nat) : keyLE a a := Or.inr ⟨rfl, le_refl _⟩

theorem keyLE_antisymm {a b : Nat × Nat} (h1 : keyLE a b) (h2 : keyLE b a) : a = b := by
  cases a; cases b
  simp only [keyLE] at h1 h2
  simp only [Prod.mk.injEq]
  omega

/-- Two sorted lists that are permutations of one another and have pairwise
distinct chronological keys are equal. -/
theorem sorted_perm_distinct_eq : ∀ {l₁ l₂ : List Trade}, l₁.Perm l₂ →
    l₁.Pairwise tradeLE → l₂.Pairwise tradeLE →
    (l₁.map tkey).Pairwise (· ≠ ·) → l₁ = l₂ := by
  intro l₁
  induction l₁ with
  | nil => intro l₂ hp _ _ _; exact (List.Perm.eq_nil hp.symm).symm
  | cons a t₁ ih =>
    intro l₂ hp hs₁ hs₂ hd
    cases l₂ with
    | nil => exact absurd (List.Perm.eq_nil hp) (by simp)
    | cons b t₂ =>
      rw [List.pairwise_cons] at hs₁ hs₂
      rw [List.map_cons, List.pairwise_cons] at hd
      by_cases hab : a = b
      · subst hab
        rw [ih hp.cons_inv hs₁.2 hs₂.2 hd.2]
      · have ha2 : a ∈ t₂ := by
          rcases List.mem_cons.mp (hp.subset (List.mem_cons_self _ _)) with h | h
          · exact absurd h hab
          · exact h
        have hb1 : b ∈ t₁ := by
          rcases List.mem_cons.mp (hp.symm.subset (List.mem_cons_self _ _)) with h | h
          · exact absurd h.symm hab
          · exact h
        have hk : tkey a = tkey b :=
          keyLE_antisymm (hs₁.1 b hb1) (hs₂.1 a ha2)
        exact absurd hk (hd.1 (tkey b) (List.mem_map_of_mem _ hb1))

/-- On distinct chronological keys the internal sort is insensitive to the
input order. -/
theorem sortTrades_perm_eq {l₁ l₂ : List Trade} (hp : l₁.Perm l₂)
    (hd : (l₁.map tkey).Pairwise (· ≠ ·)) : sortTrades l₁ = sortTrades l₂ := by
  have hperm : (sortTrades l₁).Perm (sortTrades l₂) :=
    (List.perm_insertionSort tradeLE l₁).trans
      (hp.trans (List.perm_insertionSort tradeLE l₂).symm)
  have hd₁ : ((sortTrades l₁).map tkey).Pairwise (· ≠ ·) :=
    (((List.perm_insertionSort tradeLE l₁).map tkey).pairwise_iff
      (fun h => Ne.symm h)).mpr hd
  exact sorted_perm_distinct_eq hperm
    (List.sorted_insertionSort tradeLE l₁) (List.sorted_insertionSort tradeLE l₂) hd₁

theorem tkey_ne_of_not_tradeLE {a b : Trade} (h : ¬ tradeLE a b) : tkey b ≠ tkey a := by
  intro he
  apply h
  unfold tradeLE
  rw [he]
  exact keyLE_refl _

/-- The filter of an ordered insertion by a fixed key: the inserted element
lands in front of the equal-key block (every element skipped over has a
strictly smaller key). -/
theorem filter_orderedInsert_key (k : Nat × Nat) (a : Trade) :
    ∀ (m : List Trade),
      (List.orderedInsert tradeLE a m).filter (fun t => decide (tkey t = k))
        = if tkey a = k then a :: m.filter (fun t => decide (tkey t = k))
          else m.filter (fun t => decide (tkey t = k)) := by
  intro m
  induction m with
  | nil =>
    by_cases hk : tkey a = k
    · simp [List.orderedInsert, List.filter, hk]
    · simp [List.orderedInsert, List.filter, hk]
  | cons b m ih =>
    by_cases hab : tradeLE a b
    · rw [List.orderedInsert_of_le tradeLE m hab]
      by_cases hk : tkey a = k
      · simp [List.filter_cons, hk]
      · simp [List.filter_cons, hk]
    · have hskip : List.orderedInsert tradeLE a (b :: m)
          = b :: List.orderedInsert tradeLE a m := by
        simp [List.orderedInsert, hab]
      rw [hskip]
      have hbk : tkey b ≠ tkey a := tkey_ne_of_not_tradeLE hab
      by_cases hk : tkey a = k
      · have hbk' : ¬(tkey b = k) := fun hh => hbk (hh.trans hk.symm)
        simp [List.filter_cons, hbk', ih, hk]
      · simp [List.filter_cons, ih, hk]

/-- Stability of the internal sort: for every chronological key, the trades
carrying that key appear in the sorted list in their original input-list
order. -/
theorem filter_sortTrades_key (k : Nat × Nat) :
    ∀ l : List Trade, (sortTrades l).filter (fun t => decide (tkey t = k))
      = l.filter (fun t => decide (tkey t = k)) := by
  intro l
  induction l with
  | nil => rfl
  | cons t l ih =>
    have hcons : sortTrades (t :: l) = List.orderedInsert tradeLE t (sortTrades l) := rfl
    rw [hcons, filter_orderedInsert_key k t (sortTrades l)]
    by_cases hk : tkey t = k
    · simp [List.filter_cons, hk, ih]
    · simp [List.filter_cons, hk, ih]

/-- C10: the matcher sorts the given trades internally by `(Date, Time)`
with a stable sort: (1) on trade lists with pairwise-distinct `(Date,
Time)` keys the returned ledger is invariant under any permutation of the
input; (2) trades sharing a key are kept in their original input order by
the sort, so they are applied in input-list order. -/
theorem C10_sort_behaviour :
    (∀ (l₁ l₂ : List Trade) (df : List Row), l₁.Perm l₂ →
        ((l₁.map tkey).Pairwise (· ≠ ·)) →
        match_trades_fifo df l₁ = match_trades_fifo df l₂)
    ∧ ∀ (l : List Trade) (k : Nat × Nat),
        (sortTrades l).filter (fun t => decide (tkey t = k))
          = l.filter (fun t => decide (tkey t = k)) := by
  constructor
  · intro l₁ l₂ df hp hd
    unfold match_trades_fifo
    rw [sortTrades_perm_eq hp hd]
  · intro l k
    exact filter_sortTrades_key k l

def c10a : Trade := ⟨"A", 1, 0, 1, 1, Side.LONG⟩

def c10b : Trade := ⟨"B", 2, 0, 2, 1, Side.SHORT⟩

/-- Witness for `C10_sort_behaviour` on a two-trade swap. -/
theorem C10_witness :
    match_trades_fifo [] [c10a, c10b] = match_trades_fifo [] [c10b, c10a] :=
  C10_sort_behaviour.1 [c10a, c10b] [c10b, c10a] []
    (List.Perm.swap c10b c10a []) (by decide)

/-! ### C1: walk order of the two matching loops -/

/-- The SELL walk hits the FIRST eligible BUY row: everything before the
first open BUY candidate is passed through unchanged and the candidate
receives `min(remaining, qty)`. -/
theorem closeWalk_first_eligible (pr : ℚ) (ti da : Nat) :
    ∀ (l₁ : List Row) (r : Row) (l₂ : List Row) (rem : Int),
      (∀ x ∈ l₁, ¬(x.side = Side.BUY ∧ x.exitQty = none)) →
      r.side = Side.BUY → r.exitQty = none → 0 < rem →
      closeWalk pr ti da (l₁ ++ r :: l₂) rem
        = (l₁ ++
            ({ r with
                exitQty := some (-(min rem r.qty)), exitPrice := some pr,
                exitTime := some ti, exitDate := some da } ::
              (closeWalk pr ti da l₂ (rem - min rem r.qty)).1),
           (closeWalk pr ti da l₂ (rem - min rem r.qty)).2) := by
  intro l₁
  induction l₁ with
  | nil =>
    intro r l₂ rem _ hb hx hrem
    have hcond : r.side = Side.BUY ∧ r.exitQty = none ∧ 0 < rem := ⟨hb, hx, hrem⟩
    simp only [List.nil_append, closeWalk, if_pos hcond]
  | cons x l₁ ih =>
    intro r l₂ rem h hb hx hrem
    have hc : ¬(x.side = Side.BUY ∧ x.exitQty = none ∧ 0 < rem) := by
      rintro ⟨h1, h2, -⟩
      exact h x (List.mem_cons_self _ _) ⟨h1, h2⟩
    simp only [List.cons_append, closeWalk, if_neg hc, List.append_eq]
    rw [ih r l₂ rem (fun u hu => h u (List.mem_cons_of_mem _ hu)) hb hx hrem]

/-- Same shape for the BUY cover walk over its (reversed) input. -/
theorem coverWalk_first_eligible (pr : ℚ) (ti da : Nat) :
    ∀ (l₁ : List Row) (r : Row) (l₂ : List Row) (cover : Int),
      (∀ x ∈ l₁, ¬(x.side = Side.SELL ∧ x.exitQty = none)) →
      r.side = Side.SELL → r.exitQty = none → 0 < cover →
      coverWalk pr ti da (l₁ ++ r :: l₂) cover
        = (l₁ ++
            ({ r with
                exitQty := some (min cover (|r.qty|)), exitPrice := some pr,
                exitTime := some ti, exitDate := some da } ::
              (coverWalk pr ti da l₂ (cover - min cover (|r.qty|))).1),
           (coverWalk pr ti da l₂ (cover - min cover (|r.qty|))).2) := by
  intro l₁
  induction l₁ with
  | nil =>
    intro r l₂ cover _ hs hx hcov
    have hcond : r.side = Side.SELL ∧ r.exitQty = none ∧ 0 < cover := ⟨hs, hx, hcov⟩
    simp only [List.nil_append, coverWalk, if_pos hcond]
  | cons x l₁ ih =>
    intro r l₂ cover h hs hx hcov
    have hc : ¬(x.side = Side.SELL ∧ x.exitQty = none ∧ 0 < cover) := by
      rintro ⟨h1, h2, -⟩
      exact h x (List.mem_cons_self _ _) ⟨h1, h2⟩
    simp only [List.cons_append, coverWalk, if_neg hc, List.append_eq]
    rw [ih r l₂ cover (fun u hu => h u (List.mem_cons_of_mem _ hu)) hs hx hcov]

/-- The BUY branch (`for pos in reversed(trades)`) therefore hits the LAST
eligible SELL row of the stored list first: everything after the last open
SELL candidate is passed through unchanged, the candidate receives
`min(cover, |qty|)`, and the walk continues toward OLDER rows only. -/
theorem coverRows_last_eligible (pr : ℚ) (ti da : Nat) (l₁ : List Row) (r : Row)
    (l₂ : List Row) (cover : Int)
    (h : ∀ x ∈ l₂, ¬(x.side = Side.SELL ∧ x.exitQty = none))
    (hr : r.side = Side.SELL) (hx : r.exitQty = none) (hc : 0 < cover) :
    coverRows pr ti da (l₁ ++ r :: l₂) cover
      = ((coverRows pr ti da l₁ (cover - min cover (|r.qty|))).1 ++
            ({ r with
                exitQty := some (min cover (|r.qty|)), exitPrice := some pr,
                exitTime := some ti, exitDate := some da } :: l₂),
         (coverRows pr ti da l₁ (cover - min cover (|r.qty|))).2) := by
  unfold coverRows
  have hrev : (l₁ ++ r :: l₂).reverse = l₂.reverse ++ r :: l₁.reverse := by
    simp [List.reverse_append]
  rw [hrev, coverWalk_first_eligible pr ti da l₂.reverse r l₁.reverse cover
      (fun u hu => h u (List.mem_reverse.mp hu)) hr hx hc]
  simp [List.reverse_append]

/-! ### Entry keys of reachable row lists are ascending -/

theorem keyLE_trans {a b c : Nat × Nat} (h1 : keyLE a b) (h2 : keyLE b c) : keyLE a c := by
  cases a; cases b; cases c
  simp only [keyLE] at h1 h2 ⊢
  omega

theorem closeWalk_rowKeys (pr : ℚ) (ti da : Nat) :
    ∀ (rows : List Row) (rem : Int),
      (closeWalk pr ti da rows rem).1.map rowKey = rows.map rowKey := by
  intro rows
  induction rows with
  | nil => intro rem; simp [closeWalk]
  | cons r rest ih =>
    intro rem
    by_cases hc : r.side = Side.BUY ∧ r.exitQty = none ∧ 0 < rem
    · simp only [closeWalk, if_pos hc, List.map_cons, ih]
      rfl
    · simp only [closeWalk, if_neg hc, List.map_cons, ih]

theorem coverWalk_rowKeys (pr : ℚ) (ti da : Nat) :
    ∀ (rows : List Row) (cover : Int),
      (coverWalk pr ti da rows cover).1.map rowKey = rows.map rowKey := by
  intro rows
  induction rows with
  | nil => intro cover; simp [coverWalk]
  | cons r rest ih =>
    intro cover
    by_cases hc : r.side = Side.SELL ∧ r.exitQty = none ∧ 0 < cover
    · simp only [coverWalk, if_pos hc, List.map_cons, ih]
      rfl
    · simp only [coverWalk, if_neg hc, List.map_cons, ih]

theorem coverRows_rowKeys (pr : ℚ) (ti da : Nat) (rows : List Row) (cover : Int) :
    (coverRows pr ti da rows cover).1.map rowKey = rows.map rowKey := by
  unfold coverRows
  simp [List.map_reverse, coverWalk_rowKeys]

/-- The LONG branch's row list keeps the old entry keys, possibly followed
by the trade's own key. -/
theorem applyLong_rowKeys (t : Trade) (p : Pos) :
    (applyLong t p).trades.map rowKey = p.trades.map rowKey
    ∨ (applyLong t p).trades.map rowKey = p.trades.map rowKey ++ [tkey t] := by
  unfold applyLong
  by_cases hpq : p.qty < 0
  · simp only [if_pos hpq]
    by_cases hrem : 0 < t.quantity - (min t.quantity (|p.qty|)
        - (coverRows t.price t.time t.date p.trades (min t.quantity (|p.qty|))).2)
    · right
      simp only [if_pos hrem, List.map_append]
      rw [coverRows_rowKeys]
      rfl
    · left
      simp only [if_neg hrem]
      exact coverRows_rowKeys _ _ _ _ _
  · simp only [if_neg hpq]
    by_cases hq : 0 < t.quantity
    · right
      simp only [if_pos hq, List.map_append]
      rfl
    · left
      simp only [if_neg hq]

/-- Same for the SHORT branch. -/
theorem applyShort_rowKeys (t : Trade) (p : Pos) :
    (applyShort t p).trades.map rowKey = p.trades.map rowKey
    ∨ (applyShort t p).trades.map rowKey = p.trades.map rowKey ++ [tkey t] := by
  unfold applyShort
  by_cases hrem : 0 < (closeWalk t.price t.time t.date p.trades t.quantity).2
  · right
    simp only [if_pos hrem, List.map_append]
    rw [closeWalk_rowKeys]
    rfl
  · left
    simp only [if_neg hrem]
    exact closeWalk_rowKeys _ _ _ _ _

/-- Reachable states keep every symbol's entry keys pairwise ascending. -/
def RowsOrdered (m : List (String × Pos)) : Prop :=
  ∀ kv ∈ m, List.Pairwise keyLE (kv.2.trades.map rowKey)

/-- All entry keys of a state are at most `k`. -/
def RowsBelow (m : List (String × Pos)) (k : Nat × Nat) : Prop :=
  ∀ kv ∈ m, ∀ r ∈ kv.2.trades, keyLE (rowKey r) k

theorem rowsOrdered_getPos (m : List (String × Pos)) (s : String) (h : RowsOrdered m) :
    List.Pairwise keyLE ((getPos m s).trades.map rowKey) := by
  rcases getPos_cases m s with ⟨kv, hkv, _, hg⟩ | hg
  · rw [hg]; exact h kv hkv
  · rw [hg]; simp

theorem rowsBelow_getPos (m : List (String × Pos)) (s : String) (k : Nat × Nat)
    (h : RowsBelow m k) : ∀ r ∈ (getPos m s).trades, keyLE (rowKey r) k := by
  rcases getPos_cases m s with ⟨kv, hkv, _, hg⟩ | hg
  · rw [hg]; exact h kv hkv
  · rw [hg]; intro r hr; simp at hr

theorem ordered_applyTrade (m : List (String × Pos)) (t : Trade)
    (h1 : RowsOrdered m) (h2 : RowsBelow m (tkey t)) :
    RowsOrdered (applyTrade m t) ∧ RowsBelow (applyTrade m t) (tkey t) := by
  have hp1 := rowsOrdered_getPos m t.symbol h1
  have hp2 := rowsBelow_getPos m t.symbol (tkey t) h2
  have key : ∀ p' : Pos,
      (p'.trades.map rowKey = (getPos m t.symbol).trades.map rowKey ∨
       p'.trades.map rowKey = (getPos m t.symbol).trades.map rowKey ++ [tkey t]) →
      RowsOrdered (setPos m t.symbol p') ∧ RowsBelow (setPos m t.symbol p') (tkey t) := by
    intro p' hp'
    have hord : List.Pairwise keyLE (p'.trades.map rowKey) := by
      rcases hp' with hp' | hp'
      · rw [hp']; exact hp1
      · rw [hp']
        apply List.pairwise_append.mpr
        refine ⟨hp1, List.pairwise_singleton _ _, ?_⟩
        intro a ha b hb
        have hb' : b = tkey t := by simpa using hb
        subst hb'
        rcases List.mem_map.mp ha with ⟨r0, hr0, he⟩
        rw [← he]
        exact hp2 r0 hr0
    have hbel : ∀ r ∈ p'.trades, keyLE (rowKey r) (tkey t) := by
      intro r hr
      have hmem : rowKey r ∈ p'.trades.map rowKey := List.mem_map_of_mem _ hr
      rcases hp' with hp' | hp' <;> rw [hp'] at hmem
      · rcases List.mem_map.mp hmem with ⟨r0, hr0, he⟩
        rw [← he]
        exact hp2 r0 hr0
      · rcases List.mem_append.mp hmem with hthis | hthis
        · rcases List.mem_map.mp hthis with ⟨r0, hr0, he⟩
          rw [← he]
          exact hp2 r0 hr0
        · have : rowKey r = tkey t := by simpa using hthis
          rw [this]
          exact keyLE_refl _
    constructor
    · intro kv hkv
      rcases mem_setPos m t.symbol p' kv hkv with hkv' | hkv'
      · rw [hkv']; exact hord
      · exact h1 kv hkv'
    · intro kv hkv r hr
      rcases mem_setPos m t.symbol p' kv hkv with hkv' | hkv'
      · rw [hkv'] at hr; exact hbel r hr
      · exact h2 kv hkv' r hr
  unfold applyTrade
  by_cases hL : t.side = Side.LONG
  · rw [if_pos hL]; exact key _ (applyLong_rowKeys t _)
  · rw [if_neg hL]
    by_cases hS : t.side = Side.SHORT
    · rw [if_pos hS]; exact key _ (applyShort_rowKeys t _)
    · rw [if_neg hS]; exact key _ (Or.inl rfl)

theorem rowsBelow_mono (m : List (String × Pos)) (k k' : Nat × Nat) (hk : keyLE k k') :
    RowsBelow m k → RowsBelow m k' :=
  fun h kv hkv r hr => keyLE_trans (h kv hkv r hr) hk

theorem ordered_foldl : ∀ (l : List Trade) (m : List (String × Pos)),
    List.Pairwise tradeLE l → RowsOrdered m → (∀ t ∈ l, RowsBelow m (tkey t)) →
    RowsOrdered (l.foldl applyTrade m) := by
  intro l
  induction l with
  | nil => intro m _ h _; exact h
  | cons t l ih =>
    intro m hp h1 h2
    rw [List.pairwise_cons] at hp
    rw [List.foldl_cons]
    have step := ordered_applyTrade m t h1 (h2 t (List.mem_cons_self _ _))
    refine ih _ hp.2 step.1 (fun u hu => rowsBelow_mono _ _ _ (hp.1 u hu) step.2)

/-- C1 counterexample: two open SHORT lots (entry dates 1 and 2) and a
LONG 5 cover.  The YOUNGER lot (date 2) receives the whole 5-share offset
while the OLDER eligible lot (date 1) is left fully open — quantity is
offset against a younger lot while an older eligible lot still has
available quantity, contradicting the claimed oldest-first walk for the
LONG-covers-SHORT direction. -/
theorem C1_counterexample :
    (match_trades_fifo [] tsC1).map (fun r => (r.entryDate, r.side, r.qty, r.exitQty))
      = [(1, Side.SELL, -10, none), (2, Side.SELL, -10, some 5)] := by
  decide

/-- C1 amended: (1) when a SHORT trade closes open LONG lots, the candidate
walk is in list order, so the FIRST eligible BUY row — the oldest, since
(3) every reachable per-symbol row list is ascending by
`(entryDate, entryTime)` — receives its offset before any later row; (2)
when a LONG trade covers open SHORT lots the walk runs over
`reversed(trades)`, so the LAST eligible SELL row — the youngest — receives
its offset first and the walk continues toward older rows only. -/
theorem C1_walk_order_amended :
    (∀ (pr : ℚ) (ti da : Nat) (l₁ : List Row) (r : Row) (l₂ : List Row) (rem : Int),
        (∀ x ∈ l₁, ¬(x.side = Side.BUY ∧ x.exitQty = none)) →
        r.side = Side.BUY → r.exitQty = none → 0 < rem →
        closeWalk pr ti da (l₁ ++ r :: l₂) rem
          = (l₁ ++
              ({ r with
                  exitQty := some (-(min rem r.qty)), exitPrice := some pr,
                  exitTime := some ti, exitDate := some da } ::
                (closeWalk pr ti da l₂ (rem - min rem r.qty)).1),
             (closeWalk pr ti da l₂ (rem - min rem r.qty)).2))
    ∧ (∀ (pr : ℚ) (ti da : Nat) (l₁ : List Row) (r : Row) (l₂ : List Row) (cover : Int),
        (∀ x ∈ l₂, ¬(x.side = Side.SELL ∧ x.exitQty = none)) →
        r.side = Side.SELL → r.exitQty = none → 0 < cover →
        coverRows pr ti da (l₁ ++ r :: l₂) cover
          = ((coverRows pr ti da l₁ (cover - min cover (|r.qty|))).1 ++
              ({ r with
                  exitQty := some (min cover (|r.qty|)), exitPrice := some pr,
                  exitTime := some ti, exitDate := some da } :: l₂),
             (coverRows pr ti da l₁ (cover - min cover (|r.qty|))).2))
    ∧ (∀ (ts : List Trade) (n : Nat) (s : String),
        List.Pairwise keyLE
          (((getPos (((sortTrades ts).take n).foldl applyTrade []) s).trades).map rowKey)) := by
  refine ⟨closeWalk_first_eligible, coverRows_last_eligible, ?_⟩
  intro ts n s
  have hsort : List.Pairwise tradeLE ((sortTrades ts).take n) :=
    (List.sorted_insertionSort tradeLE ts).sublist (List.take_sublist n _)
  exact rowsOrdered_getPos _ s
    (ordered_foldl ((sortTrades ts).take n) [] hsort
      (fun kv hkv => absurd hkv (List.not_mem_nil kv))
      (fun t _ kv hkv => absurd hkv (List.not_mem_nil kv)))

/-- A fully closed long lot (ineligible candidate) for the C1 witness. -/
def c1ClosedBuy : Row := ⟨"A", 10, Side.BUY, 1, 0, 1, "", some (-10), some 1, some 0, some 1⟩

/-- An open long lot for the C1 witness. -/
def c1OpenBuy : Row := ⟨"A", 7, Side.BUY, 1, 0, 2, "", none, none, none, none⟩

/-- An open short lot for the C1 witness. -/
def c1OpenSell : Row := ⟨"A", -10, Side.SELL, 1, 0, 1, "", none, none, none, none⟩

/-- Witness for `C1_walk_order_amended` at concrete rows and on the `tsC1`
run. -/
theorem C1_witness :
    (closeWalk 2 0 3 ([c1ClosedBuy] ++ c1OpenBuy :: []) 5
      = ([c1ClosedBuy] ++
          ({ c1OpenBuy with
              exitQty := some (-(min 5 c1OpenBuy.qty)), exitPrice := some 2,
              exitTime := some 0, exitDate := some 3 } ::
            (closeWalk 2 0 3 [] (5 - min 5 c1OpenBuy.qty)).1),
         (closeWalk 2 0 3 [] (5 - min 5 c1OpenBuy.qty)).2))
    ∧ (coverRows 2 0 3 ([] ++ c1OpenSell :: [c1OpenBuy]) 4
      = ((coverRows 2 0 3 [] (4 - min 4 (|c1OpenSell.qty|))).1 ++
          ({ c1OpenSell with
              exitQty := some (min 4 (|c1OpenSell.qty|)), exitPrice := some 2,
              exitTime := some 0, exitDate := some 3 } :: [c1OpenBuy]),
         (coverRows 2 0 3 [] (4 - min 4 (|c1OpenSell.qty|))).2))
    ∧ List.Pairwise keyLE
        (((getPos (((sortTrades tsC1).take 3).foldl applyTrade []) "A").trades).map rowKey) :=
  ⟨C1_walk_order_amended.1 2 0 3 [c1ClosedBuy] c1OpenBuy [] 5 (by decide) rfl rfl (by decide),
   C1_walk_order_amended.2.1 2 0 3 [] c1OpenSell [c1OpenBuy] 4 (by decide) rfl rfl (by decide),
   C1_walk_order_amended.2.2 tsC1 3 "A"⟩
